import Mathlib

/-!
Verification of the entry catalog / cache merge engine and the exec
dispatcher of the `sklauncher` application launcher.

The Rust sources (src/entry.rs, src/exec.rs, src/history.rs, src/main.rs)
are shallowly embedded below.  Filesystem reads are modelled by explicit
input data (directory listings, file mtimes, parse outcomes); a Rust
panic (`unwrap` / `expect` failure) is modelled by `none` or by an
explicit `panic` constructor, since a panic aborts the whole program.
File modification times are `f64` seconds in the Rust code but are only
ever compared with `==`, so they are modelled as `Nat`.
-/

set_option maxHeartbeats 1000000

namespace SkLauncher

/-- Model of `struct Entry` (src/entry.rs lines 62-73).  `count` is the
`u32` usage counter, modelled as `Nat`; the one place that does
arithmetic on it (`execute`) reduces mod `2 ^ 32`. -/
structure Entry where
  path : String
  mtime : Option Nat
  name : String
  exec : String
  generic_name : Option String
  comment : Option String
  terminal : Bool
  desktop : Bool
  count : Nat
deriving DecidableEq

/-- Model of `Entry::new` (src/entry.rs lines 91-103). -/
def Entry.new : Entry :=
  { path := "", mtime := none, name := "", exec := "", generic_name := none,
    comment := none, terminal := false, desktop := false, count := 0 }

/-- Model of `IndexMap<String, Entry>`: an insertion-ordered map,
represented as an association list whose keys stay distinct under
`emInsert`. -/
abbrev EntryMap := List (String × Entry)

/-- Model of `IndexMap::get`: the binding of a key (first match). -/
def emGet : EntryMap → String → Option Entry
  | [], _ => none
  | (k, v) :: rest, key => if k = key then some v else emGet rest key

/-- Model of `IndexMap::insert` (and of mutation through `get_mut`):
replace the value in place if the key is present, otherwise append the
binding at the end. -/
def emInsert : EntryMap → String → Entry → EntryMap
  | [], key, v => [(key, v)]
  | (k, w) :: rest, key, v =>
      if k = key then (k, v) :: rest else (k, w) :: emInsert rest key v

/-- Model of `IndexMap::extend`: insert every binding of `b` into `a`,
in order. -/
def emExtend (a : EntryMap) : EntryMap → EntryMap
  | [] => a
  | (k, v) :: rest => emExtend (emInsert a k v) rest

/-- Keys of the map, in order. -/
def emKeys (m : EntryMap) : List String := m.map Prod.fst

/-- The distinct-keys invariant every real `IndexMap` satisfies. -/
def emNodup (m : EntryMap) : Prop := (emKeys m).Nodup

/-- Display names of the entries, in map order. -/
def emNames (m : EntryMap) : List String := m.map (fun kv => kv.2.name)

/-- First-`some` choice on options (`a` wins over `b`). -/
def oor (a b : Option Entry) : Option Entry :=
  match a with
  | some x => some x
  | none => b

/-- Lexicographic comparison of character lists by scalar value.  Rust
`String::cmp` compares UTF-8 bytes; on valid UTF-8, byte order and
scalar-value order coincide, so this is the same total order. -/
def strCmp : List Char → List Char → Ordering
  | [], [] => .eq
  | [], _ :: _ => .lt
  | _ :: _, [] => .gt
  | a :: as, b :: bs =>
    if a.toNat < b.toNat then .lt
    else if b.toNat < a.toNat then .gt
    else strCmp as bs

/-- Model of `entry_cmp` (src/entry.rs lines 209-211): compare two
entries by `name` (Rust `String::cmp`). -/
def entry_cmp (v1 v2 : Entry) : Ordering := strCmp v1.name.data v2.name.data

/-- Order relation "name not greater", used to state sortedness. -/
abbrev nameLe (a b : String × Entry) : Prop := entry_cmp a.2 b.2 ≠ .gt

/-- Insert a binding into a name-sorted list, after every binding that
compares strictly below it.  Folded over a list this realizes the stable
sort performed by `IndexMap::sort_by(entry_cmp)` (src/entry.rs lines
231 and 257): a stable sort's output is uniquely determined by the
comparator, so this insertion sort is extensionally the sort the Rust
code runs. -/
def sortInsert (kv : String × Entry) : EntryMap → EntryMap
  | [] => [kv]
  | kv' :: rest =>
      if entry_cmp kv'.2 kv.2 = .lt then kv' :: sortInsert kv rest
      else kv :: kv' :: rest

/-- Model of `IndexMap::sort_by(entry_cmp)`. -/
def sortByName : EntryMap → EntryMap
  | [] => []
  | kv :: rest => sortInsert kv (sortByName rest)

/-- The `[Desktop Entry]` section of a parsed descriptor file, reduced
to the five keys `load_desktop_entry_file` consumes. -/
structure DSection where
  name : Option String
  exec : Option String
  generic_name : Option String
  comment : Option String
  terminal : Option String
deriving DecidableEq

/-- One candidate descriptor file as the scanner sees it: path,
extension, mtime (the value `get_mtime` returns, src/entry.rs lines
52-60), and the combined outcome of `ini::Ini::load_from_file` plus
`conf.section(Some("Desktop Entry"))`: `none` when the file is
unreadable, unparsable, or has no such section (src/entry.rs lines
307-314). -/
structure DFile where
  path : String
  ext : Option String
  mtime : Nat
  content : Option DSection
deriving DecidableEq

/-- ASCII lowercasing, for the case-insensitive token match below. -/
def asciiLower (c : Char) : Char :=
  if 'A' ≤ c ∧ c ≤ 'Z' then Char.ofNat (c.toNat + 32) else c

/-- Model of `str::parse::<LenientBool>()` from the `lenient_bool`
crate used at src/entry.rs line 339: case-insensitive truthy/falsy
tokens; any other string is a parse error (`none`), which the Rust code
`unwrap`s. -/
def parseLenientBool (s : String) : Option Bool :=
  let t := String.mk (s.data.map asciiLower)
  if t = "1" ∨ t = "true" ∨ t = "t" ∨ t = "yes" ∨ t = "y" ∨ t = "on" then some true
  else if t = "0" ∨ t = "false" ∨ t = "f" ∨ t = "no" ∨ t = "n" ∨ t = "off" then some false
  else none

/-- Outcome of `load_desktop_entry_file`: `panic` models a Rust panic;
otherwise the optional entry together with a flag recording whether the
file contents were read and parsed. -/
inductive FileScan where
  | panic
  | result (e : Option Entry) (parsed : Bool)
deriving DecidableEq

/-- The parse branch of `load_desktop_entry_file` (src/entry.rs lines
306-342): build an entry from the section.  `Name` and `Exec` are
required (their absence drops the file); an unparsable `Terminal` value
panics (`terminal.parse::<LenientBool>().unwrap()`, line 339). -/
def parse_desktop_entry (f : DFile) (count : Nat) : FileScan :=
  match f.content with
  | none => .result none true
  | some sec =>
    match sec.name with
    | none => .result none true
    | some nm =>
      match sec.exec with
      | none => .result none true
      | some ex =>
        match sec.terminal with
        | none =>
          .result (some { Entry.new with
            desktop := true
            path := f.path
            count := count
            mtime := some f.mtime
            name := nm
            exec := ex
            generic_name := sec.generic_name
            comment := sec.comment
            terminal := false }) true
        | some t =>
          match parseLenientBool t with
          | none => .panic
          | some b =>
            .result (some { Entry.new with
              desktop := true
              path := f.path
              count := count
              mtime := some f.mtime
              name := nm
              exec := ex
              generic_name := sec.generic_name
              comment := sec.comment
              terminal := b }) true

/-- Model of `load_desktop_entry_file` (src/entry.rs lines 291-343).
When the prior catalog holds this path and the stored mtime equals the
fresh mtime, the cached entry is returned without parsing; a cached
entry whose `mtime` is `none` hits the panicking
`history.get(&filestr).unwrap().mtime.unwrap()` at line 297. -/
def load_desktop_entry_file (f : DFile) (history : EntryMap) : FileScan :=
  match emGet history f.path with
  | some e =>
    match e.mtime with
    | none => .panic
    | some m =>
      if m = f.mtime then .result (some e) false
      else parse_desktop_entry f e.count
  | none => parse_desktop_entry f 0

/-- A node of the descriptor directory tree: a subdirectory, whose
`read_dir` panics when it is unreadable (`readable := false`), or a
candidate file. -/
inductive FsNode where
  | dir (readable : Bool) (children : List FsNode)
  | file (f : DFile)

mutual

/-- One iteration of the loop of `load_desktop_entry_dir`
(src/entry.rs lines 263-287): recurse into a subdirectory and extend,
or insert the entry of a `.desktop` file; `none` models a panic. -/
def load_desktop_entry_item (history : EntryMap) : FsNode → EntryMap → Option EntryMap
  | .dir false _, _ => none
  | .dir true cs, acc =>
    match load_desktop_entry_dir history cs [] with
    | none => none
    | some sub => some (emExtend acc sub)
  | .file f, acc =>
    if f.ext = some "desktop" then
      match load_desktop_entry_file f history with
      | .panic => none
      | .result none _ => some acc
      | .result (some e) _ => some (emInsert acc f.path e)
    else some acc

/-- Model of `load_desktop_entry_dir` (src/entry.rs lines 261-289) as a
walk over one directory listing, accumulating into `acc`; `none` models
a panic (an unreadable directory's `read_dir().unwrap()`, or a panic
from `load_desktop_entry_file`) aborting the scan. -/
def load_desktop_entry_dir (history : EntryMap) : List FsNode → EntryMap → Option EntryMap
  | [], acc => some acc
  | n :: rest, acc =>
    match load_desktop_entry_item history n acc with
    | none => none
    | some acc2 => load_desktop_entry_dir history rest acc2

end

/-- Model of `load_desktop_entries` (src/entry.rs lines 250-259): walk
each root directory of `get_app_dirs()` in priority order, extending one
result map, then sort the whole result by name.  The roots are directory
nodes (`get_app_dirs` keeps only existing directories). -/
def load_desktop_entries (roots : List FsNode) (history : EntryMap) : Option EntryMap :=
  match load_desktop_entry_dir history roots [] with
  | none => none
  | some m => some (sortByName m)

mutual

/-- The `.desktop`-extension candidate files of one node, in traversal
order. -/
def dFilesNode : FsNode → List DFile
  | .dir _ cs => dFilesList cs
  | .file f => if f.ext = some "desktop" then [f] else []

/-- The `.desktop`-extension candidate files of a listing, in traversal
order. -/
def dFilesList : List FsNode → List DFile
  | [] => []
  | n :: rest => dFilesNode n ++ dFilesList rest

end

/-- Paths of the candidate descriptor files of a root set. -/
def dPaths (ns : List FsNode) : List String := (dFilesList ns).map DFile.path

mutual

/-- The binding a node's scan leaves at key `p`: the entry of the last
producing file with that path, if any.  Mirrors the insert/extend
structure of the scan. -/
def prodLastNode (history : EntryMap) : FsNode → String → Option Entry
  | .dir _ cs, p => prodLastList history cs p
  | .file f, p =>
    if f.ext = some "desktop" ∧ f.path = p then
      match load_desktop_entry_file f history with
      | .result (some e) _ => some e
      | _ => none
    else none

/-- The binding a listing's scan leaves at key `p` (later nodes win). -/
def prodLastList (history : EntryMap) : List FsNode → String → Option Entry
  | [], _ => none
  | n :: rest, p => oor (prodLastList history rest p) (prodLastNode history n p)

end

/-- Panic-or-entry outcome of one file's scan: `none` models a panic,
`some e` the optional produced entry (the parse flag discarded). -/
def fsOut (f : DFile) (history : EntryMap) : Option (Option Entry) :=
  match load_desktop_entry_file f history with
  | .panic => none
  | .result e _ => some e

/-- One filesystem object found directly inside a search-path
directory: its full path, its base name, and whether it is a regular
file. -/
structure BinItem where
  path : String
  name : String
  isFile : Bool
deriving DecidableEq

/-- One segment of the `$PATH` search list: whether the path is an
existing directory (`is_dir`), and its listing, `none` when `read_dir`
fails (which panics, src/entry.rs line 220). -/
structure PathDir where
  isDir : Bool
  listing : Option (List BinItem)
deriving DecidableEq

/-- Model of `get_paths` (src/entry.rs lines 37-50): keep only the
`$PATH` segments that are existing directories. -/
def get_paths (l : List PathDir) : List PathDir := l.filter (·.isDir)

/-- The usage count the prior catalog carries for a path, else 0. -/
def binCount (history : EntryMap) (p : String) : Nat :=
  match emGet history p with
  | some e => e.count
  | none => 0

/-- Model of `load_bin_entry` (src/entry.rs lines 237-248). -/
def load_bin_entry (f : BinItem) (history : EntryMap) : Entry :=
  { Entry.new with
    count := binCount history f.path
    path := f.path
    name := f.name
    exec := f.name }

/-- The inner loop of `load_bin_entries` (src/entry.rs lines 218-230):
one directory's entries, regular files only, in listing order. -/
def load_bin_dir (history : EntryMap) : List BinItem → EntryMap → EntryMap
  | [], acc => acc
  | it :: rest, acc =>
    load_bin_dir history rest
      (if it.isFile then emInsert acc it.path (load_bin_entry it history) else acc)

/-- The outer loop of `load_bin_entries` over the existing search
directories: sort each directory block by name and append; an
unreadable directory panics (`read_dir().unwrap()`). -/
def load_bin_entries_go (history : EntryMap) : List PathDir → EntryMap → Option EntryMap
  | [], acc => some acc
  | d :: rest, acc =>
    match d.listing with
    | none => none
    | some items =>
      load_bin_entries_go history rest
        (emExtend acc (sortByName (load_bin_dir history items [])))

/-- Model of `load_bin_entries` (src/entry.rs lines 213-235). -/
def load_bin_entries (l : List PathDir) (history : EntryMap) : Option EntryMap :=
  load_bin_entries_go history (get_paths l) []

/-- Paths of the regular files of the existing, listed search
directories (the keys the path scan can create). -/
def binPathsDirs : List PathDir → List String
  | [] => []
  | d :: rest =>
    (match d.listing with
     | some items => (items.filter (fun it => it.isFile)).map (fun it => it.path)
     | none => []) ++ binPathsDirs rest

/-- Paths of the regular files of the executable search list. -/
def binPaths (l : List PathDir) : List String := binPathsDirs (get_paths l)

/-- Model of `save_history` (src/history.rs lines 27-34): the cache
file is overwritten with a deterministic serialization of the map, so
the persisted bytes are a function of the map; persistence is modelled
by the map itself. -/
def save_history (m : EntryMap) : EntryMap := m

/-- Model of `load_entries` (src/entry.rs lines 345-352): load the
prior catalog (the `history` argument here), scan descriptors, extend
with the path scan, persist.  The returned catalog is exactly the map
`save_history` persisted; `none` models a panic during either scan. -/
def load_entries (roots : List FsNode) (bins : List PathDir) (history : EntryMap) :
    Option EntryMap :=
  match load_desktop_entries roots history with
  | none => none
  | some d =>
    match load_bin_entries bins history with
    | none => none
    | some b => some (save_history (emExtend d b))

/-- Unicode `White_Space`: the character class of the regex `\s` and of
Rust `str::trim`. -/
def isUniWs (c : Char) : Bool :=
  c = ' ' || c = '\t' || c = '\n' || c = '\r' || c.toNat = 0xB || c.toNat = 0xC ||
  c.toNat = 0x85 || c.toNat = 0xA0 || c.toNat = 0x1680 ||
  (0x2000 ≤ c.toNat && c.toNat ≤ 0x200A) || c.toNat = 0x2028 || c.toNat = 0x2029 ||
  c.toNat = 0x202F || c.toNat = 0x205F || c.toNat = 0x3000

/-- The regex class `\w` (word character): ASCII letters, digits and
underscore.  The non-ASCII remainder of the Unicode class is irrelevant
to every command string appearing in the claims and is not enumerated
here. -/
def isWordChar (c : Char) : Bool := c.isAlphanum || c = '_'

/-- One anchored match attempt of `RE_EXEC_OPT = \s*%\w` (src/exec.rs
line 11): greedily consume whitespace, then require `%` and one word
character; returns the remainder after the match.  Backtracking into a
shorter whitespace run can never help, since a whitespace character is
not `%`, so greedy consumption is exact. -/
def fcMatch (l : List Char) : Option (List Char) :=
  match l.dropWhile isUniWs with
  | '%' :: c :: r => if isWordChar c then some r else none
  | _ => none

/-- Worker for `Regex::replace_all` with empty replacement: scan left
to right, deleting each leftmost non-overlapping match.  `fuel` bounds
the recursion; every match consumes at least two characters, so an
initial fuel of the input length is never exhausted. -/
def stripGo : Nat → List Char → List Char
  | 0, _ => []
  | _ + 1, [] => []
  | fuel + 1, c :: rest =>
    match fcMatch (c :: rest) with
    | some r => stripGo fuel r
    | none => c :: stripGo fuel rest

/-- Model of `RE_EXEC_OPT.replace_all(cmd, "")` (src/exec.rs lines 42
and 48). -/
def strip_exec_opt (s : String) : String :=
  String.mk (stripGo s.data.length s.data)

/-- Model of Rust `str::trim`: strip Unicode whitespace from both
ends. -/
def rustTrim (s : String) : String :=
  String.mk (((s.data.dropWhile isUniWs).reverse.dropWhile isUniWs).reverse)

/-- Characters that force quoting in `shlex` quoting (shlex crate,
used by `shlex::try_join` at src/exec.rs line 62). -/
def shlexSpecial (c : Char) : Bool :=
  c = '|' || c = '&' || c = ';' || c = '<' || c = '>' || c = '(' || c = ')' ||
  c = '$' || c.toNat = 96 || c.toNat = 92 || c.toNat = 34 || c.toNat = 39 ||
  c = ' ' || c = '\t' || c = '\r' || c = '\n' || c = '*' || c = '?' ||
  c = '[' || c = '#' || c = '~' || c = '=' || c = '%'

/-- Escaping inside a double-quoted shlex word: backslash, double
quote, dollar and backquote get a leading backslash. -/
def shlexEscapeChar (c : Char) : List Char :=
  if c.toNat = 92 || c.toNat = 34 || c = '$' || c.toNat = 96 then [Char.ofNat 92, c]
  else [c]

/-- Model of shlex quoting: an empty word becomes a pair of double
quotes; a word containing a special character is wrapped in double
quotes with escapes; a NUL byte is an error (`none`), which
`shlex::try_join`'s caller `expect`s. -/
def shlexTryQuote (s : String) : Option String :=
  if s.data.any (fun c => c.toNat = 0) then none
  else if s = "" then some (String.mk [Char.ofNat 34, Char.ofNat 34])
  else if s.data.any shlexSpecial then
    some (String.mk (Char.ofNat 34 :: (s.data.map shlexEscapeChar).flatten ++ [Char.ofNat 34]))
  else some s

/-- Model of `shlex::try_join` (src/exec.rs line 62): quote each word
and join with single spaces. -/
def shlexTryJoin (l : List String) : Option String :=
  match l.mapM shlexTryQuote with
  | none => none
  | some qs => some (String.intercalate " " qs)

/-- Model of `shlex::split` applied to the `--terminal-command`
override (src/exec.rs line 53).  No claim exercises the override path;
the crate's quote handling is reduced to whitespace splitting here, the
`Option` kept for the panicking `expect`. -/
def shlexSplit (s : String) : Option (List String) :=
  some ((s.split (fun c => isUniWs c)).filter (fun w => w ≠ ""))

/-- The two CLI options the exec dispatcher reads from the global
`OPTIONS` (src/exec.rs lines 51 and 69): `--terminal-command`, and the
command prefix (`pfx` here names the Rust field `command_prefix`). -/
structure Opts where
  terminal_command : Option String
  pfx : Option String
deriving DecidableEq

/-- Model of `_exec` (src/exec.rs lines 68-82): prepend the non-empty
command prefix, if any; the result is the string handed to
`setsid sh -c` in the spawned, detached process. -/
def exec_sh (opts : Opts) (cmd : String) : String :=
  match opts.pfx with
  | some p => if p ≠ "" then p ++ " " ++ cmd else cmd
  | none => cmd

/-- Model of `exec_command` (src/exec.rs lines 34-37): the command a
bare-executable entry dispatches. -/
def exec_command_cmd (e : Entry) : String := rustTrim e.exec

/-- Model of `exec_app` (src/exec.rs lines 40-44): trim, then strip
field codes. -/
def exec_app_cmd (e : Entry) : String := strip_exec_opt (rustTrim e.exec)

/-- Model of `exec_term` (src/exec.rs lines 47-65): the joined terminal
command string.  The base is the split `--terminal-command` override if
set, else `[$TERM, "-e"]`, else `["alacritty", "-e"]`; the cleaned
command is appended and the list joined by `shlex::try_join`; `none`
models the panicking `expect`s. -/
def exec_term_cmd (opts : Opts) (term : Option String) (e : Entry) : Option String :=
  let cmd := strip_exec_opt (rustTrim e.exec)
  let base : Option (List String) :=
    match opts.terminal_command with
    | some v => shlexSplit v
    | none =>
      match term with
      | some t => some [t, "-e"]
      | none => some ["alacritty", "-e"]
  match base with
  | none => none
  | some tc => shlexTryJoin (tc ++ [cmd])

/-- The command string `execute`'s dispatch hands to `_exec`
(src/exec.rs lines 24-30); `none` models a panic while building it. -/
def dispatch_cmd (opts : Opts) (term : Option String) (e : Entry) : Option String :=
  if !e.desktop then some (exec_command_cmd e)
  else if !e.terminal then some (exec_app_cmd e)
  else exec_term_cmd opts term e

/-- Observable effects of the dispatcher, in program order: a
`save_history` call recording the map it persisted, and a process spawn
recording the final shell command string. -/
inductive Event where
  | saved (m : EntryMap)
  | spawned (cmd : String)
deriving DecidableEq

/-- The modulus of the `u32` counter arithmetic. -/
def u32Mod : Nat := 2 ^ 32

/-- Model of `execute` (src/exec.rs lines 18-31): look up the selected
entry (`unwrap` panics if absent), increment its `u32` counter in
place (wrapping, as a release-build `u32` does), persist the whole
catalog, then spawn.  Returns the updated catalog and the effect trace;
`none` models a panic. -/
def execute (opts : Opts) (term : Option String) (pathstr : String)
    (entries : EntryMap) : Option (EntryMap × List Event) :=
  match emGet entries pathstr with
  | none => none
  | some e =>
    let e1 : Entry := { e with count := (e.count + 1) % u32Mod }
    let entries1 := emInsert entries pathstr e1
    match dispatch_cmd opts term e1 with
    | none => none
    | some c =>
      some (entries1, [Event.saved (save_history entries1),
                       Event.spawned (exec_sh opts c)])

/-- Model of `execute_raw` (src/exec.rs lines 14-16): trim and spawn;
no lookup, no counter update, no persistence. -/
def execute_raw (opts : Opts) (cmd : String) : List Event :=
  [Event.spawned (exec_sh opts (rustTrim cmd))]

/-- `n` successive launches of the same selected entry, threading the
in-memory catalog and concatenating the effect traces. -/
def executeN (opts : Opts) (term : Option String) (p : String)
    (entries : EntryMap) : Nat → Option (EntryMap × List Event)
  | 0 => some (entries, [])
  | n + 1 =>
    match execute opts term p entries with
    | none => none
    | some (m, evs) =>
      match executeN opts term p m n with
      | none => none
      | some (m2, evs2) => some (m2, evs ++ evs2)

/-! Concrete fixtures used by witnesses and counterexamples. -/

/-- Cached descriptor entry for the C1 witness. -/
def c1entry : Entry :=
  { path := "/apps/a.desktop"
    mtime := some 5
    name := "A"
    exec := "a %f"
    generic_name := none
    comment := none
    terminal := false
    desktop := true
    count := 9 }

/-- Prior catalog for the C1 witness. -/
def c1hist : EntryMap := [("/apps/a.desktop", c1entry)]

/-- Descriptor file (same path, same mtime, different content) for the
C1 witness. -/
def c1file : DFile :=
  { path := "/apps/a.desktop"
    ext := some "desktop"
    mtime := 5
    content := some
      { name := some "Changed"
        exec := some "c"
        generic_name := none
        comment := none
        terminal := none } }

/-- Cached entry without a stored mtime, for the C10 witness. -/
def c10entry : Entry :=
  { Entry.new with path := "/apps/b.desktop", name := "b", exec := "b", count := 2 }

/-- Prior catalog for the C10 witness. -/
def c10hist : EntryMap := [("/apps/b.desktop", c10entry)]

/-- Descriptor file whose path has an mtime-less cache entry (C10). -/
def c10file : DFile :=
  { path := "/apps/b.desktop"
    ext := some "desktop"
    mtime := 4
    content := some
      { name := some "B"
        exec := some "b"
        generic_name := none
        comment := none
        terminal := none } }

/-- Prior-catalog entry with usage count 7 for the C3 example. -/
def c3prior : Entry :=
  { Entry.new with path := "/bin/p", name := "p", exec := "p", count := 7 }

/-- Prior catalog for the C3 example. -/
def c3hist : EntryMap := [("/bin/p", c3prior)]

/-- Search directory whose listing holds the bare executable of the C3
example. -/
def c3dir : PathDir :=
  { isDir := true, listing := some [{ path := "/bin/p", name := "p", isFile := true }] }

/-- Bare-executable catalog entry launched repeatedly in the C2
witness. -/
def c2entry : Entry :=
  { Entry.new with path := "/bin/x", name := "x", exec := "x" }

/-- An existing search directory whose listing cannot be read (C5). -/
def c5unreadable : PathDir := { isDir := true, listing := none }

/-- A search-list segment that is not an existing directory (C5). -/
def c5missing : PathDir := { isDir := false, listing := none }

/-- A readable search directory with one executable (C5). -/
def c5good : PathDir :=
  { isDir := true, listing := some [{ path := "/bin/q", name := "q", isFile := true }] }

/-- Descriptor file with a present but unparsable `Terminal` value
(C6). -/
def c6file : DFile :=
  { path := "/apps/t.desktop"
    ext := some "desktop"
    mtime := 3
    content := some
      { name := some "T"
        exec := some "t"
        generic_name := none
        comment := none
        terminal := some "maybe" } }

/-- Descriptor file missing the required `Exec` key (C6). -/
def c6noexec : DFile :=
  { path := "/apps/u.desktop"
    ext := some "desktop"
    mtime := 2
    content := some
      { name := some "U"
        exec := none
        generic_name := none
        comment := none
        terminal := none } }

/-- Valid descriptor file with no `Terminal` key (C6). -/
def c6noterm : DFile :=
  { path := "/apps/v.desktop"
    ext := some "desktop"
    mtime := 6
    content := some
      { name := some "V"
        exec := some "v"
        generic_name := none
        comment := none
        terminal := none } }

/-- Descriptor file of the C4 idempotence witness. -/
def c4dfile : DFile :=
  { path := "/apps/c.desktop"
    ext := some "desktop"
    mtime := 5
    content := some
      { name := some "C"
        exec := some "c %u"
        generic_name := none
        comment := none
        terminal := some "true" } }

/-- Descriptor roots of the C4 witness. -/
def c4roots : List FsNode := [.dir true [.file c4dfile]]

/-- Search list of the C4 witness. -/
def c4bins : List PathDir :=
  [{ isDir := true, listing := some [{ path := "/bin/c", name := "c", isFile := true }] }]

/-- The catalog both runs of the C4 witness produce and persist. -/
def c4cat : EntryMap :=
  [("/apps/c.desktop",
    { Entry.new with
      desktop := true
      path := "/apps/c.desktop"
      mtime := some 5
      name := "C"
      exec := "c %u"
      terminal := true }),
   ("/bin/c",
    { Entry.new with path := "/bin/c", name := "c", exec := "c" })]

/-- Descriptor named `Zed` in the first (higher-priority) descriptor
directory (C7). -/
def c7fileZ : DFile :=
  { path := "/d1/z.desktop"
    ext := some "desktop"
    mtime := 1
    content := some
      { name := some "Zed"
        exec := some "zed"
        generic_name := none
        comment := none
        terminal := none } }

/-- Descriptor named `Apple` in the second descriptor directory (C7). -/
def c7fileA : DFile :=
  { path := "/d2/a.desktop"
    ext := some "desktop"
    mtime := 1
    content := some
      { name := some "Apple"
        exec := some "apple"
        generic_name := none
        comment := none
        terminal := none } }

/-- Two descriptor root directories in priority order (C7). -/
def c7roots : List FsNode := [.dir true [.file c7fileZ], .dir true [.file c7fileA]]

/-- A single descriptor directory holding files named `Zed`, `Apple`
and `mid`, in that listing order (C7 witness). -/
def c7zam : List FsNode :=
  [.dir true
    [.file
      { path := "/dz/z.desktop"
        ext := some "desktop"
        mtime := 1
        content := some
          { name := some "Zed"
            exec := some "zed"
            generic_name := none
            comment := none
            terminal := none } },
     .file
      { path := "/dz/a.desktop"
        ext := some "desktop"
        mtime := 1
        content := some
          { name := some "Apple"
            exec := some "apple"
            generic_name := none
            comment := none
            terminal := none } },
     .file
      { path := "/dz/m.desktop"
        ext := some "desktop"
        mtime := 1
        content := some
          { name := some "mid"
            exec := some "mid"
            generic_name := none
            comment := none
            terminal := none } }]]

/-! Basic lemmas about the ordered-map operations. -/

theorem emKeys_cons (a : String) (w : Entry) (rest : EntryMap) :
    emKeys ((a, w) :: rest) = a :: emKeys rest := rfl

theorem emNodup_cons_iff (a : String) (w : Entry) (rest : EntryMap) :
    emNodup ((a, w) :: rest) ↔ a ∉ emKeys rest ∧ emNodup rest := by
  simp [emNodup, emKeys_cons, List.nodup_cons]

theorem emGet_emInsert (m : EntryMap) (k q : String) (v : Entry) :
    emGet (emInsert m k v) q = if k = q then some v else emGet m q := by
  induction m with
  | nil => simp [emInsert, emGet]
  | cons kv rest ih =>
    obtain ⟨a, w⟩ := kv
    by_cases hk : a = k
    · subst hk
      by_cases hq : a = q <;> simp [emInsert, emGet, hq]
    · by_cases hq : a = q
      · subst hq
        have hkq : ¬ k = a := fun h => hk h.symm
        simp [emInsert, emGet, hk, hkq]
      · simp [emInsert, emGet, hk, hq, ih]

theorem emGet_eq_none_iff (m : EntryMap) (q : String) :
    emGet m q = none ↔ q ∉ emKeys m := by
  induction m with
  | nil => simp [emGet, emKeys]
  | cons kv rest ih =>
    obtain ⟨a, w⟩ := kv
    rw [emKeys_cons, List.mem_cons]
    by_cases hq : a = q
    · subst hq
      simp [emGet]
    · simp only [emGet, if_neg hq]
      rw [ih]
      constructor
      · intro h
        push_neg
        exact ⟨fun hc => hq hc.symm, h⟩
      · intro h
        push_neg at h
        exact h.2

theorem mem_of_emGet_eq_some {m : EntryMap} {q : String} {v : Entry}
    (h : emGet m q = some v) : (q, v) ∈ m := by
  induction m with
  | nil => simp [emGet] at h
  | cons kv rest ih =>
    obtain ⟨a, w⟩ := kv
    by_cases hq : a = q
    · subst hq
      simp [emGet] at h
      subst h
      exact List.mem_cons_self _ _
    · simp only [emGet, if_neg hq] at h
      exact List.mem_cons_of_mem _ (ih h)

theorem mem_emKeys_of_mem {m : EntryMap} {q : String} {v : Entry}
    (h : (q, v) ∈ m) : q ∈ emKeys m :=
  List.mem_map.mpr ⟨(q, v), h, rfl⟩

theorem emGet_of_mem {q : String} {v : Entry} (m : EntryMap) :
    emNodup m → (q, v) ∈ m → emGet m q = some v := by
  induction m with
  | nil => intro _ h; simp at h
  | cons kv rest ih =>
    intro hnd h
    obtain ⟨a, w⟩ := kv
    rw [emNodup_cons_iff] at hnd
    rcases List.mem_cons.mp h with h1 | h1
    · rw [Prod.mk.injEq] at h1
      obtain ⟨rfl, rfl⟩ := h1
      simp [emGet]
    · have hq : ¬ a = q := by
        intro hh
        subst hh
        exact hnd.1 (mem_emKeys_of_mem h1)
      simp only [emGet, if_neg hq]
      exact ih hnd.2 h1

theorem mem_emKeys_emInsert (m : EntryMap) (k q : String) (v : Entry) :
    q ∈ emKeys (emInsert m k v) ↔ q ∈ emKeys m ∨ q = k := by
  induction m with
  | nil => simp [emInsert, emKeys]
  | cons kv rest ih =>
    obtain ⟨a, w⟩ := kv
    by_cases hk : a = k
    · subst hk
      rw [show emInsert ((a, w) :: rest) a v = (a, v) :: rest from by
        simp [emInsert]]
      simp only [emKeys_cons, List.mem_cons]
      tauto
    · rw [show emInsert ((a, w) :: rest) k v = (a, w) :: emInsert rest k v from by
        simp [emInsert, hk]]
      simp only [emKeys_cons, List.mem_cons]
      rw [ih]
      tauto

theorem emNodup_emInsert {m : EntryMap} (k : String) (v : Entry) :
    emNodup m → emNodup (emInsert m k v) := by
  induction m with
  | nil => intro _; simp [emInsert, emNodup, emKeys]
  | cons kv rest ih =>
    intro h
    obtain ⟨a, w⟩ := kv
    rw [emNodup_cons_iff] at h
    by_cases hk : a = k
    · subst hk
      rw [show emInsert ((a, w) :: rest) a v = (a, v) :: rest from by
        simp [emInsert]]
      rw [emNodup_cons_iff]
      exact h
    · rw [show emInsert ((a, w) :: rest) k v = (a, w) :: emInsert rest k v from by
        simp [emInsert, hk]]
      rw [emNodup_cons_iff]
      refine ⟨?_, ih h.2⟩
      intro hx
      rcases (mem_emKeys_emInsert rest k a v).mp hx with h1 | h1
      · exact h.1 h1
      · exact hk h1

theorem emExtend_cons (a : EntryMap) (k : String) (v : Entry) (b : EntryMap) :
    emExtend a ((k, v) :: b) = emExtend (emInsert a k v) b := rfl

theorem emGet_emExtend (b : EntryMap) (q : String) :
    ∀ a : EntryMap, emNodup b →
      emGet (emExtend a b) q = oor (emGet b q) (emGet a q) := by
  induction b with
  | nil => intro a _; simp [emExtend, emGet, oor]
  | cons kv b2 ih =>
    intro a hb
    obtain ⟨k, v⟩ := kv
    rw [emNodup_cons_iff] at hb
    rw [emExtend_cons, ih _ hb.2, emGet_emInsert]
    by_cases hq : k = q
    · subst hq
      have hnone : emGet b2 k = none := (emGet_eq_none_iff b2 k).mpr hb.1
      simp [emGet, oor, hnone]
    · simp [emGet, hq, oor]

theorem mem_emKeys_emExtend (b : EntryMap) (q : String) :
    ∀ a : EntryMap, q ∈ emKeys (emExtend a b) ↔ q ∈ emKeys a ∨ q ∈ emKeys b := by
  induction b with
  | nil => intro a; simp [emExtend, emKeys]
  | cons kv b2 ih =>
    intro a
    obtain ⟨k, v⟩ := kv
    rw [emExtend_cons, ih, mem_emKeys_emInsert, emKeys_cons, List.mem_cons]
    tauto

theorem emNodup_emExtend (b : EntryMap) :
    ∀ a : EntryMap, emNodup a → emNodup (emExtend a b) := by
  induction b with
  | nil => intro a ha; exact ha
  | cons kv b2 ih =>
    intro a ha
    obtain ⟨k, v⟩ := kv
    rw [emExtend_cons]
    exact ih _ (emNodup_emInsert k v ha)

theorem mem_emInsert {k q : String} {v w : Entry} (m : EntryMap) :
    (q, w) ∈ emInsert m k v → (q = k ∧ w = v) ∨ (q, w) ∈ m := by
  induction m with
  | nil => intro h; simpa [emInsert] using h
  | cons kv rest ih =>
    intro h
    obtain ⟨a, b⟩ := kv
    by_cases hk : a = k
    · subst hk
      rw [show emInsert ((a, b) :: rest) a v = (a, v) :: rest from by
        simp [emInsert]] at h
      rcases List.mem_cons.mp h with h1 | h1
      · rw [Prod.mk.injEq] at h1
        exact Or.inl ⟨h1.1, h1.2⟩
      · exact Or.inr (List.mem_cons_of_mem _ h1)
    · rw [show emInsert ((a, b) :: rest) k v = (a, b) :: emInsert rest k v from by
        simp [emInsert, hk]] at h
      rcases List.mem_cons.mp h with h1 | h1
      · exact Or.inr (by simp [h1])
      · rcases ih h1 with h2 | h2
        · exact Or.inl h2
        · exact Or.inr (List.mem_cons_of_mem _ h2)

theorem mem_emExtend {q : String} {w : Entry} (b : EntryMap) :
    ∀ a : EntryMap, (q, w) ∈ emExtend a b → (q, w) ∈ a ∨ (q, w) ∈ b := by
  induction b with
  | nil => intro a h; exact Or.inl h
  | cons kv b2 ih =>
    intro a h
    obtain ⟨k, v⟩ := kv
    rw [emExtend_cons] at h
    rcases ih _ h with h1 | h1
    · rcases mem_emInsert _ h1 with ⟨h2, h3⟩ | h2
      · exact Or.inr (by simp [h2, h3])
      · exact Or.inl h2
    · exact Or.inr (List.mem_cons_of_mem _ h1)

/-! Lemmas about the stable name sort. -/

theorem sortInsert_perm (kv : String × Entry) (l : EntryMap) :
    List.Perm (sortInsert kv l) (kv :: l) := by
  induction l with
  | nil => exact List.Perm.refl _
  | cons kv2 rest ih =>
    by_cases h : entry_cmp kv2.2 kv.2 = .lt
    · rw [show sortInsert kv (kv2 :: rest) = kv2 :: sortInsert kv rest from by
        simp [sortInsert, h]]
      exact (ih.cons kv2).trans (List.Perm.swap kv kv2 rest)
    · rw [show sortInsert kv (kv2 :: rest) = kv :: kv2 :: rest from by
        simp [sortInsert, h]]

theorem sortByName_perm (m : EntryMap) : List.Perm (sortByName m) m := by
  induction m with
  | nil => exact List.Perm.refl _
  | cons kv rest ih =>
    exact (sortInsert_perm kv (sortByName rest)).trans (ih.cons kv)

theorem emGet_eq_of_perm {m1 m2 : EntryMap} (hp : List.Perm m1 m2)
    (hnd : emNodup m1) (q : String) : emGet m1 q = emGet m2 q := by
  have hk : List.Perm (emKeys m1) (emKeys m2) := hp.map Prod.fst
  have hnd2 : emNodup m2 := hk.nodup_iff.mp hnd
  cases h1 : emGet m1 q with
  | none =>
    have hn1 : q ∉ emKeys m1 := (emGet_eq_none_iff m1 q).mp h1
    have hn2 : q ∉ emKeys m2 := fun hx => hn1 (hk.mem_iff.mpr hx)
    exact ((emGet_eq_none_iff m2 q).mpr hn2).symm
  | some v =>
    have hm : (q, v) ∈ m2 := hp.mem_iff.mp (mem_of_emGet_eq_some h1)
    exact (emGet_of_mem m2 hnd2 hm).symm

theorem emNodup_sortByName {m : EntryMap} (h : emNodup m) :
    emNodup (sortByName m) :=
  (((sortByName_perm m).map Prod.fst).nodup_iff).mpr h

theorem emGet_sortByName (m : EntryMap) (h : emNodup m) (q : String) :
    emGet (sortByName m) q = emGet m q :=
  emGet_eq_of_perm (sortByName_perm m) (emNodup_sortByName h) q

/-! Claim theorems (part 1). -/

/-- C1: if the previous catalog contains an entry for a descriptor
file's exact path and that entry's stored `modified_time` equals the
freshly-read mtime, the scan returns the cached entry unchanged in
every field (including its `usage_count`) and does not read or parse
the file's contents (the `parsed` flag of the result is `false`). -/
theorem cache_short_circuit_returns_cached (f : DFile) (history : EntryMap)
    (e : Entry) (hget : emGet history f.path = some e)
    (hmt : e.mtime = some f.mtime) :
    load_desktop_entry_file f history = .result (some e) false := by
  simp [load_desktop_entry_file, hget, hmt]

/-- Witness for C1 at a concrete cached file whose on-disk content
changed but whose mtime did not. -/
theorem cache_short_circuit_returns_cached_witness :
    emGet c1hist c1file.path = some c1entry ∧ c1entry.mtime = some c1file.mtime ∧
    load_desktop_entry_file c1file c1hist = .result (some c1entry) false :=
  ⟨by decide, by decide,
    cache_short_circuit_returns_cached c1file c1hist c1entry (by decide) (by decide)⟩

/-- C10: a persisted-cache entry found under a descriptor file's path
whose `modified_time` is absent (`none`, as stored for bare
executables) makes the per-file scan panic (the `mtime.unwrap()` at
src/entry.rs line 297), aborting the whole scan, instead of re-parsing
or silently dropping the file. -/
theorem cached_missing_mtime_panics (f : DFile) (history : EntryMap)
    (e : Entry) (rest : List FsNode) (acc : EntryMap)
    (hget : emGet history f.path = some e) (hmt : e.mtime = none) :
    load_desktop_entry_file f history = .panic ∧
    (f.ext = some "desktop" →
      load_desktop_entry_dir history (.file f :: rest) acc = none) := by
  constructor
  · simp [load_desktop_entry_file, hget, hmt]
  · intro hext
    simp [load_desktop_entry_dir, load_desktop_entry_item, hext,
      load_desktop_entry_file, hget, hmt]

/-- Witness for C10 at a concrete mtime-less cached entry. -/
theorem cached_missing_mtime_panics_witness :
    emGet c10hist c10file.path = some c10entry ∧ c10entry.mtime = none ∧
    load_desktop_entry_file c10file c10hist = .panic ∧
    load_desktop_entry_dir c10hist [.file c10file] [] = none := by
  have h := cached_missing_mtime_panics c10file c10hist c10entry [] []
    (by decide) (by decide)
  exact ⟨by decide, by decide, h.1, h.2 (by decide)⟩

/-- C3: a bare-executable entry takes its `usage_count` from the prior
catalog when the same path existed there (else 0), with
`display_name = exec_command =` the file's base name,
`is_structured = false` and `modified_time = none`; concretely, a prior
count of 7 for path `/bin/p` survives a rescan of `/bin/p` as a bare
executable. -/
theorem bin_entry_count_merge :
    (∀ (f : BinItem) (history : EntryMap),
      load_bin_entry f history =
        { path := f.path
          mtime := none
          name := f.name
          exec := f.name
          generic_name := none
          comment := none
          terminal := false
          desktop := false
          count := match emGet history f.path with
                   | some e => e.count
                   | none => 0 }) ∧
    load_bin_entries [c3dir] c3hist =
      some [("/bin/p",
        { Entry.new with path := "/bin/p", name := "p", exec := "p", count := 7 })] :=
  ⟨fun _ _ => rfl, by decide⟩

/-- C8: field-code stripping (the regex `\s*%\w` replaced by the empty
string) maps the input `app %f --flag %u` to exactly `app --flag`. -/
theorem strip_field_codes_example :
    strip_exec_opt "app %f --flag %u" = "app --flag" := by decide

/-- C9: for a structured terminal entry with the terminal-command
override unset and `$TERM = "foo"`, the dispatched command string for
the cleaned command `edit file.txt` equals the shell-quoted join of
`["foo", "-e", "edit file.txt"]`. -/
theorem terminal_wrapping_join :
    dispatch_cmd { terminal_command := none, pfx := none } (some "foo")
      { Entry.new with
        desktop := true
        terminal := true
        exec := "edit file.txt" } =
      shlexTryJoin ["foo", "-e", "edit file.txt"] ∧
    shlexTryJoin ["foo", "-e", "edit file.txt"] =
      some "foo -e \"edit file.txt\"" := by
  constructor
  · decide
  · decide

/-! Sortedness of the name sort. -/

theorem strCmp_gt_iff_lt (x : List Char) : ∀ y : List Char,
    strCmp x y = .gt ↔ strCmp y x = .lt := by
  induction x with
  | nil => intro y; cases y <;> simp [strCmp]
  | cons a as ih =>
    intro y
    cases y with
    | nil => simp [strCmp]
    | cons b bs =>
      by_cases h1 : a.toNat < b.toNat
      · have h2 : ¬ b.toNat < a.toNat := by omega
        simp [strCmp, h1, h2]
      · by_cases h2 : b.toNat < a.toNat
        · simp [strCmp, h1, h2]
        · simp [strCmp, h1, h2, ih]

theorem strCmp_ne_gt_trans (x : List Char) : ∀ y z : List Char,
    strCmp x y ≠ .gt → strCmp y z ≠ .gt → strCmp x z ≠ .gt := by
  induction x with
  | nil =>
    intro y z _ _
    cases z <;> simp [strCmp]
  | cons a as ih =>
    intro y z h1 h2
    cases y with
    | nil => simp [strCmp] at h1
    | cons b bs =>
      cases z with
      | nil => simp [strCmp] at h2
      | cons c cs =>
        by_cases hba : b.toNat < a.toNat
        · exfalso
          apply h1
          simp [strCmp, hba, show ¬ a.toNat < b.toNat by omega]
        · by_cases hcb : c.toNat < b.toNat
          · exfalso
            apply h2
            simp [strCmp, hcb, show ¬ b.toNat < c.toNat by omega]
          · by_cases hca : c.toNat < a.toNat
            · exfalso
              omega
            · by_cases hac : a.toNat < c.toNat
              · simp [strCmp, hac]
              · have hab : ¬ a.toNat < b.toNat := by omega
                have hbc : ¬ b.toNat < c.toNat := by omega
                simp [strCmp, hac, hca]
                exact ih bs cs (by simpa [strCmp, hab, hba] using h1)
                  (by simpa [strCmp, hbc, hcb] using h2)

theorem sortInsert_pairwise (kv : String × Entry) (l : EntryMap)
    (hl : List.Pairwise nameLe l) :
    List.Pairwise nameLe (sortInsert kv l) := by
  induction l with
  | nil => simp [sortInsert]
  | cons kv2 rest ih =>
    rcases List.pairwise_cons.mp hl with ⟨h1, h2⟩
    by_cases h : entry_cmp kv2.2 kv.2 = .lt
    · have hle : nameLe kv2 kv := by
        simp [nameLe, h]
      rw [show sortInsert kv (kv2 :: rest) = kv2 :: sortInsert kv rest from by
        simp [sortInsert, h]]
      rw [List.pairwise_cons]
      refine ⟨?_, ih h2⟩
      intro z hz
      have hz2 : z ∈ kv :: rest := (sortInsert_perm kv rest).mem_iff.mp hz
      rcases List.mem_cons.mp hz2 with rfl | hz3
      · exact hle
      · exact h1 z hz3
    · have hle : nameLe kv kv2 := by
        intro hgt
        exact h ((strCmp_gt_iff_lt _ _).mp hgt)
      rw [show sortInsert kv (kv2 :: rest) = kv :: kv2 :: rest from by
        simp [sortInsert, h]]
      rw [List.pairwise_cons]
      refine ⟨?_, hl⟩
      intro z hz
      rcases List.mem_cons.mp hz with rfl | hz2
      · exact hle
      · exact strCmp_ne_gt_trans _ _ _ hle (h1 z hz2)

theorem sortByName_pairwise (m : EntryMap) :
    List.Pairwise nameLe (sortByName m) := by
  induction m with
  | nil => simp [sortByName]
  | cons kv rest ih => exact sortInsert_pairwise kv (sortByName rest) ih

/-! Claim theorems (part 2): error policy and ordering. -/

/-- C5 counterexample: an existing but unreadable search directory does
not get skipped with the scan continuing, as the claim states; the
`read_dir().unwrap()` panic (modelled by `none`) aborts the whole scan,
so the readable directory after it is never reached.  A non-existing
segment, in contrast, really is silently skipped. -/
theorem unreadable_dir_aborts_scan_cex :
    load_bin_entries [c5unreadable, c5good] [] = none ∧
    load_bin_entries [c5missing, c5good] [] =
      some [("/bin/q", { Entry.new with path := "/bin/q", name := "q", exec := "q" })] := by
  constructor
  · decide
  · decide

/-- C5 amended: a search-list segment that is not an existing directory
is silently skipped; but an existing directory that cannot be read
panics and aborts the scan — in both the executable scanner and the
descriptor scanner — instead of being skipped with a diagnostic. -/
theorem dir_error_policy (d : PathDir) (l : List PathDir)
    (history : EntryMap) (cs rest : List FsNode) (acc : EntryMap) :
    (d.isDir = false → load_bin_entries (d :: l) history = load_bin_entries l history) ∧
    (d.isDir = true → d.listing = none → load_bin_entries (d :: l) history = none) ∧
    load_desktop_entry_dir history (.dir false cs :: rest) acc = none := by
  refine ⟨?_, ?_, ?_⟩
  · intro h
    simp [load_bin_entries, get_paths, List.filter_cons, h]
  · intro h1 h2
    simp [load_bin_entries, get_paths, List.filter_cons, h1, load_bin_entries_go, h2]
  · simp [load_desktop_entry_dir, load_desktop_entry_item]

/-- Witness for C5 amended, at concrete directories. -/
theorem dir_error_policy_witness :
    load_bin_entries [c5missing] [] = load_bin_entries [] [] ∧
    load_bin_entries [c5unreadable] [] = none ∧
    load_desktop_entry_dir [] [.dir false []] [] = none :=
  ⟨(dir_error_policy c5missing [] [] [] [] []).1 (by decide),
   (dir_error_policy c5unreadable [] [] [] [] []).2.1 (by decide) (by decide),
   (dir_error_policy c5unreadable [] [] [] [] []).2.2⟩

/-- C6 counterexample: a descriptor file whose optional `Terminal` key
holds a value the lenient boolean parser rejects is not silently
dropped, as the claim states: `terminal.parse::<LenientBool>().unwrap()`
panics (modelled by `.panic`), and the surrounding directory scan
aborts (`none`) instead of continuing. -/
theorem invalid_terminal_panics_cex :
    load_desktop_entry_file c6file [] = .panic ∧
    load_desktop_entry_dir [] [.file c6file] [] = none := by
  constructor
  · decide
  · decide

/-- C6 amended: for a file not short-circuited by the cache, an
unreadable/unparsable content, a missing section, or a missing required
`Name`/`Exec` key silently drops the file and the scan continues; a
missing `Terminal` key defaults to `false`; but a present `Terminal`
value that the lenient parser rejects panics, aborting the scan. -/
theorem file_error_policy (f : DFile) (history : EntryMap)
    (rest : List FsNode) (acc : EntryMap)
    (hmiss : emGet history f.path = none) :
    ((f.content = none ∨
      (∃ sec, f.content = some sec ∧ sec.name = none) ∨
      (∃ sec, f.content = some sec ∧ sec.exec = none)) →
      load_desktop_entry_file f history = .result none true ∧
      load_desktop_entry_dir history (.file f :: rest) acc =
        load_desktop_entry_dir history rest acc) ∧
    (∀ sec nm ex t, f.content = some sec → sec.name = some nm →
      sec.exec = some ex → sec.terminal = some t → parseLenientBool t = none →
      load_desktop_entry_file f history = .panic) ∧
    (∀ sec nm ex, f.content = some sec → sec.name = some nm →
      sec.exec = some ex → sec.terminal = none →
      ∃ e, load_desktop_entry_file f history = .result (some e) true ∧
        e.terminal = false) := by
  refine ⟨?_, ?_, ?_⟩
  · intro hbad
    have hdrop : load_desktop_entry_file f history = .result none true := by
      rcases hbad with h | ⟨sec, hsec, hname⟩ | ⟨sec, hsec, hexec⟩
      · simp [load_desktop_entry_file, hmiss, parse_desktop_entry, h]
      · simp [load_desktop_entry_file, hmiss, parse_desktop_entry, hsec, hname]
      · cases hn : sec.name with
        | none => simp [load_desktop_entry_file, hmiss, parse_desktop_entry, hsec, hn]
        | some nm =>
          simp [load_desktop_entry_file, hmiss, parse_desktop_entry, hsec, hn, hexec]
    refine ⟨hdrop, ?_⟩
    by_cases hext : f.ext = some "desktop"
    · simp [load_desktop_entry_dir, load_desktop_entry_item, hext, hdrop]
    · simp [load_desktop_entry_dir, load_desktop_entry_item, hext]
  · intro sec nm ex t hsec hname hexec hterm hparse
    simp [load_desktop_entry_file, hmiss, parse_desktop_entry, hsec, hname,
      hexec, hterm, hparse]
  · intro sec nm ex hsec hname hexec hterm
    refine ⟨{ Entry.new with
      desktop := true
      path := f.path
      count := 0
      mtime := some f.mtime
      name := nm
      exec := ex
      generic_name := sec.generic_name
      comment := sec.comment
      terminal := false }, ?_, rfl⟩
    simp [load_desktop_entry_file, hmiss, parse_desktop_entry, hsec, hname,
      hexec, hterm]

/-- Witness for C6 amended, at three concrete descriptor files. -/
theorem file_error_policy_witness :
    load_desktop_entry_file c6noexec [] = .result none true ∧
    load_desktop_entry_file c6file [] = .panic ∧
    (∃ e, load_desktop_entry_file c6noterm [] = .result (some e) true ∧
      e.terminal = false) :=
  ⟨((file_error_policy c6noexec [] [] [] (by decide)).1
      (Or.inr (Or.inr ⟨{ name := some "U", exec := none, generic_name := none, comment := none, terminal := none }, by decide, by decide⟩))).1,
   (file_error_policy c6file [] [] [] (by decide)).2.1
      { name := some "T", exec := some "t", generic_name := none, comment := none, terminal := some "maybe" } "T" "t" "maybe"
      (by decide) (by decide) (by decide) (by decide) (by decide),
   (file_error_policy c6noterm [] [] [] (by decide)).2.2
      { name := some "V", exec := some "v", generic_name := none, comment := none, terminal := none } "V" "v"
      (by decide) (by decide) (by decide) (by decide)⟩

/-- C7 counterexample: with `Zed` in the first (higher-priority)
descriptor directory and `Apple` in the second, the claimed
cross-directory ordering (directory-priority blocks, each internally
sorted) would list `Zed` before `Apple`; the scanner instead sorts the
whole structured-entry set globally by name and returns `Apple` before
`Zed`. -/
theorem cross_directory_order_cex :
    (load_desktop_entries c7roots []).map emNames = some ["Apple", "Zed"] ∧
    (load_desktop_entries c7roots []).map emNames ≠ some ["Zed", "Apple"] := by
  constructor
  · decide
  · decide

/-- C7 amended: within one directory, structured entries come out
ordered by `display_name`, case-sensitively ascending (so `Zed`,
`Apple`, `mid` list as `Apple`, `Zed`, `mid`); but across descriptor
directories the scanner re-sorts the whole structured-entry set
globally by `display_name`, so cross-directory ordering is global name
order, not directory-priority block order. -/
theorem desktop_entries_globally_sorted (roots : List FsNode)
    (history : EntryMap) (m : EntryMap)
    (hm : load_desktop_entries roots history = some m) :
    List.Pairwise nameLe m := by
  unfold load_desktop_entries at hm
  cases hscan : load_desktop_entry_dir history roots [] with
  | none => rw [hscan] at hm; cases hm
  | some m0 =>
    rw [hscan] at hm
    have : sortByName m0 = m := by injection hm
    rw [← this]
    exact sortByName_pairwise m0

/-- Witness for C7 amended: the one-directory `Zed`/`Apple`/`mid`
example from the claim, listed as `Apple`, `Zed`, `mid`. -/
theorem desktop_entries_globally_sorted_witness :
    (∃ m, load_desktop_entries c7zam [] = some m ∧
      List.Pairwise nameLe m ∧
      emNames m = ["Apple", "Zed", "mid"]) :=
  ⟨[("/dz/a.desktop",
      { Entry.new with
        desktop := true
        path := "/dz/a.desktop"
        mtime := some 1
        name := "Apple"
        exec := "apple" }),
    ("/dz/z.desktop",
      { Entry.new with
        desktop := true
        path := "/dz/z.desktop"
        mtime := some 1
        name := "Zed"
        exec := "zed" }),
    ("/dz/m.desktop",
      { Entry.new with
        desktop := true
        path := "/dz/m.desktop"
        mtime := some 1
        name := "mid"
        exec := "mid" })],
   by decide,
   desktop_entries_globally_sorted c7zam [] _ (by decide),
   by decide⟩

/-! Claim theorems (part 3): the exec dispatcher's counter updates. -/

theorem dispatch_cmd_count (opts : Opts) (term : Option String) (e : Entry)
    (c : Nat) :
    dispatch_cmd opts term { e with count := c } = dispatch_cmd opts term e := rfl

theorem execute_step (opts : Opts) (term : Option String) (p : String)
    (entries : EntryMap) (e : Entry)
    (hget : emGet entries p = some e)
    (hc : (dispatch_cmd opts term e).isSome) :
    ∃ c, dispatch_cmd opts term e = some c ∧
      execute opts term p entries =
        some (emInsert entries p { e with count := (e.count + 1) % u32Mod },
          [Event.saved (emInsert entries p { e with count := (e.count + 1) % u32Mod }),
           Event.spawned (exec_sh opts c)]) := by
  obtain ⟨c, hcc⟩ := Option.isSome_iff_exists.mp hc
  refine ⟨c, hcc, ?_⟩
  have hcc1 : dispatch_cmd opts term
      { e with count := (e.count + 1) % u32Mod } = some c := by
    rw [dispatch_cmd_count]; exact hcc
  simp [execute, hget, hcc1, save_history]

/-- C2: for a selected entry present in the in-memory catalog, each
launch increments exactly that entry's `usage_count` by 1 and persists
the whole updated catalog (the `saved` event) before the spawn (the
`spawned` event); hence `n` launches in sequence (below `u32` overflow)
increase the count by exactly `n`, with a persist of the
then-current catalog preceding every spawn.  The free-typed launch
path performs no persistence (and touches no catalog). -/
theorem execute_counter_durability (opts : Opts) (term : Option String)
    (p : String) (entries : EntryMap) (e : Entry) (n : Nat)
    (hget : emGet entries p = some e)
    (hc : (dispatch_cmd opts term e).isSome)
    (hbound : e.count + n < u32Mod) :
    (∃ mN tr, executeN opts term p entries n = some (mN, tr) ∧
      (∃ eN, emGet mN p = some eN ∧ eN.count = e.count + n) ∧
      tr.length = 2 * n ∧
      (∀ i, i < n →
        ∃ mi ci, tr[2 * i]? = some (Event.saved mi) ∧
          tr[2 * i + 1]? = some (Event.spawned ci) ∧
          ∃ ei, emGet mi p = some ei ∧ ei.count = e.count + i + 1)) ∧
    (∀ (o2 : Opts) (s : String) (m : EntryMap),
      Event.saved m ∉ execute_raw o2 s) := by
  constructor
  · induction n generalizing entries e with
    | zero =>
      exact ⟨entries, [], rfl, ⟨e, hget, by simp⟩, rfl,
        fun i hi => absurd hi (by omega)⟩
    | succ k ih =>
      have hb1 : e.count + 1 < u32Mod := by omega
      have hcount1 : (({ e with count := (e.count + 1) % u32Mod } : Entry)).count
          = e.count + 1 := by
        simp [Nat.mod_eq_of_lt hb1]
      obtain ⟨c, hcc, hex⟩ := execute_step opts term p entries e hget hc
      have hget1 : emGet (emInsert entries p
          { e with count := (e.count + 1) % u32Mod }) p =
          some { e with count := (e.count + 1) % u32Mod } := by
        rw [emGet_emInsert]
        simp
      have hc1 : (dispatch_cmd opts term
          { e with count := (e.count + 1) % u32Mod }).isSome := by
        rw [dispatch_cmd_count]
        exact hc
      obtain ⟨mN, tr, hrun, ⟨eN, hgetN, hcN⟩, hlen, hidx⟩ :=
        ih (emInsert entries p { e with count := (e.count + 1) % u32Mod })
          { e with count := (e.count + 1) % u32Mod } hget1 hc1
          (by rw [hcount1]; omega)
      refine ⟨mN,
        [Event.saved (emInsert entries p { e with count := (e.count + 1) % u32Mod }),
         Event.spawned (exec_sh opts c)] ++ tr, ?_,
        ⟨eN, hgetN, by rw [hcN, hcount1]; omega⟩, ?_, ?_⟩
      · simp [executeN, hex, hrun]
      · simp [hlen]
        omega
      · intro i hi
        cases i with
        | zero =>
          refine ⟨emInsert entries p { e with count := (e.count + 1) % u32Mod },
            exec_sh opts c, by simp, by simp,
            { e with count := (e.count + 1) % u32Mod }, hget1, by rw [hcount1]⟩
        | succ j =>
          have hj : j < k := by omega
          obtain ⟨mi, ci, h1, h2, ei, hgei, hcei⟩ := hidx j hj
          refine ⟨mi, ci, ?_, ?_, ei, hgei, by rw [hcei, hcount1]; omega⟩
          · rw [show 2 * (j + 1) = 2 * j + 1 + 1 by ring]
            simpa using h1
          · rw [show 2 * (j + 1) + 1 = 2 * j + 1 + 1 + 1 by ring]
            simpa using h2
  · intro o2 s m
    simp [execute_raw]

/-- Witness for C2: three launches of a concrete bare-executable entry
increase its persisted count from 0 to 3. -/
theorem execute_counter_durability_witness :
    emGet [("/bin/x", c2entry)] "/bin/x" = some c2entry ∧
    (dispatch_cmd { terminal_command := none, pfx := none } none c2entry).isSome ∧
    c2entry.count + 3 < u32Mod ∧
    (∃ mN tr, executeN { terminal_command := none, pfx := none } none "/bin/x"
        [("/bin/x", c2entry)] 3 = some (mN, tr) ∧
      (∃ eN, emGet mN "/bin/x" = some eN ∧ eN.count = c2entry.count + 3)) := by
  refine ⟨by decide, by decide, by decide, ?_⟩
  obtain ⟨⟨mN, tr, h1, h2, _, _⟩, _⟩ :=
    execute_counter_durability { terminal_command := none, pfx := none } none
      "/bin/x" [("/bin/x", c2entry)] c2entry 3 (by decide) (by decide) (by decide)
  exact ⟨mN, tr, h1, h2⟩

/-! Lemmas toward idempotence of the catalog build (C4). -/

theorem oor_none_right (a : Option Entry) : oor a none = a := by
  cases a <;> rfl

theorem oor_assoc (a b c : Option Entry) :
    oor (oor a b) c = oor a (oor b c) := by
  cases a <;> rfl

theorem fsOut_eq_none_iff (f : DFile) (h : EntryMap) :
    fsOut f h = none ↔ load_desktop_entry_file f h = .panic := by
  cases hl : load_desktop_entry_file f h <;> simp [fsOut, hl]

theorem fsOut_eq_some_iff (f : DFile) (h : EntryMap) (e : Option Entry) :
    fsOut f h = some e ↔ ∃ b, load_desktop_entry_file f h = .result e b := by
  cases hl : load_desktop_entry_file f h <;> simp [fsOut, hl]

theorem parse_none_count (f : DFile) (c c2 : Nat) (b : Bool)
    (h : parse_desktop_entry f c = .result none b) :
    parse_desktop_entry f c2 = .result none b := by
  unfold parse_desktop_entry at h ⊢
  cases hc : f.content with
  | none => simp only [hc] at h ⊢; exact h
  | some sec =>
    simp only [hc] at h ⊢
    cases hn : sec.name with
    | none => simp only [hn] at h ⊢; exact h
    | some nm =>
      simp only [hn] at h ⊢
      cases he : sec.exec with
      | none => simp only [he] at h ⊢; exact h
      | some ex =>
        simp only [he] at h ⊢
        cases ht : sec.terminal with
        | none => simp only [ht] at h; simp at h
        | some t =>
          simp only [ht] at h
          cases hp : parseLenientBool t with
          | none => simp only [hp] at h; simp at h
          | some bb => simp only [hp] at h; simp at h

theorem parse_some_mtime (f : DFile) (c : Nat) (e : Entry) (b : Bool)
    (h : parse_desktop_entry f c = .result (some e) b) :
    e.mtime = some f.mtime := by
  unfold parse_desktop_entry at h
  cases hc : f.content with
  | none => simp only [hc] at h; simp at h
  | some sec =>
    simp only [hc] at h
    cases hn : sec.name with
    | none => simp only [hn] at h; simp at h
    | some nm =>
      simp only [hn] at h
      cases he : sec.exec with
      | none => simp only [he] at h; simp at h
      | some ex =>
        simp only [he] at h
        cases ht : sec.terminal with
        | none =>
          simp only [ht, FileScan.result.injEq, Option.some.injEq] at h
          obtain ⟨h1, h2⟩ := h
          subst h1
          rfl
        | some t =>
          simp only [ht] at h
          cases hp : parseLenientBool t with
          | none => simp only [hp] at h; simp at h
          | some bb =>
            simp only [hp, FileScan.result.injEq, Option.some.injEq] at h
            obtain ⟨h1, h2⟩ := h
            subst h1
            rfl

theorem load_file_mtime (f : DFile) (h : EntryMap) (e : Entry) (b : Bool)
    (hl : load_desktop_entry_file f h = .result (some e) b) :
    e.mtime = some f.mtime := by
  unfold load_desktop_entry_file at hl
  cases hg : emGet h f.path with
  | none =>
    simp only [hg] at hl
    exact parse_some_mtime f 0 e b hl
  | some e0 =>
    simp only [hg] at hl
    cases hm : e0.mtime with
    | none => simp only [hm] at hl; simp at hl
    | some m =>
      simp only [hm] at hl
      by_cases heq : m = f.mtime
      · rw [if_pos heq] at hl
        simp only [FileScan.result.injEq, Option.some.injEq] at hl
        obtain ⟨h1, h2⟩ := hl
        subst h1
        rw [hm, heq]
      · rw [if_neg heq] at hl
        exact parse_some_mtime f e0.count e b hl

mutual

theorem scanItem_no_panic (h : EntryMap) (n : FsNode) :
    ∀ acc m, load_desktop_entry_item h n acc = some m →
      ∀ f ∈ dFilesNode n, load_desktop_entry_file f h ≠ .panic := by
  cases n with
  | dir r cs =>
    intro acc m hs f hf
    cases r with
    | false => simp [load_desktop_entry_item] at hs
    | true =>
      cases hsub : load_desktop_entry_dir h cs [] with
      | none => simp [load_desktop_entry_item, hsub] at hs
      | some sub => exact scanList_no_panic h cs [] sub hsub f hf
  | file g =>
    intro acc m hs f hf
    by_cases hext : g.ext = some "desktop"
    · have hfg : f = g := by simpa [dFilesNode, hext] using hf
      subst hfg
      cases hl : load_desktop_entry_file f h with
      | panic => simp [load_desktop_entry_item, hext, hl] at hs
      | result e b =>
        intro hcon
        simp at hcon
    · simp [dFilesNode, hext] at hf

theorem scanList_no_panic (h : EntryMap) (ns : List FsNode) :
    ∀ acc m, load_desktop_entry_dir h ns acc = some m →
      ∀ f ∈ dFilesList ns, load_desktop_entry_file f h ≠ .panic := by
  cases ns with
  | nil => intro acc m _ f hf; simp [dFilesList] at hf
  | cons n rest =>
    intro acc m hs f hf
    cases hitem : load_desktop_entry_item h n acc with
    | none => simp [load_desktop_entry_dir, hitem] at hs
    | some acc2 =>
      rcases List.mem_append.mp
        (show f ∈ dFilesNode n ++ dFilesList rest from hf) with hf1 | hf1
      · exact scanItem_no_panic h n acc acc2 hitem f hf1
      · have hs2 : load_desktop_entry_dir h rest acc2 = some m := by
          simpa only [load_desktop_entry_dir, hitem] using hs
        exact scanList_no_panic h rest acc2 m hs2 f hf1

end

mutual

theorem scanItem_nodup (h : EntryMap) (n : FsNode) :
    ∀ acc m, emNodup acc → load_desktop_entry_item h n acc = some m →
      emNodup m := by
  cases n with
  | dir r cs =>
    intro acc m hacc hs
    cases r with
    | false => simp [load_desktop_entry_item] at hs
    | true =>
      cases hsub : load_desktop_entry_dir h cs [] with
      | none => simp [load_desktop_entry_item, hsub] at hs
      | some sub =>
        simp only [load_desktop_entry_item, hsub] at hs
        obtain rfl : emExtend acc sub = m := by simpa using hs
        exact emNodup_emExtend sub acc hacc
  | file g =>
    intro acc m hacc hs
    by_cases hext : g.ext = some "desktop"
    · cases hl : load_desktop_entry_file g h with
      | panic => simp [load_desktop_entry_item, hext, hl] at hs
      | result e b =>
        cases e with
        | none =>
          simp only [load_desktop_entry_item, if_pos hext, hl] at hs
          obtain rfl : acc = m := by simpa using hs
          exact hacc
        | some e0 =>
          simp only [load_desktop_entry_item, if_pos hext, hl] at hs
          obtain rfl : emInsert acc g.path e0 = m := by simpa using hs
          exact emNodup_emInsert _ _ hacc
    · simp only [load_desktop_entry_item, if_neg hext] at hs
      obtain rfl : acc = m := by simpa using hs
      exact hacc

theorem scanList_nodup (h : EntryMap) (ns : List FsNode) :
    ∀ acc m, emNodup acc → load_desktop_entry_dir h ns acc = some m →
      emNodup m := by
  cases ns with
  | nil =>
    intro acc m hacc hs
    obtain rfl : acc = m := by simpa [load_desktop_entry_dir] using hs
    exact hacc
  | cons n rest =>
    intro acc m hacc hs
    cases hitem : load_desktop_entry_item h n acc with
    | none => simp [load_desktop_entry_dir, hitem] at hs
    | some acc2 =>
      have hacc2 : emNodup acc2 := scanItem_nodup h n acc acc2 hacc hitem
      have hs2 : load_desktop_entry_dir h rest acc2 = some m := by
        simpa only [load_desktop_entry_dir, hitem] using hs
      exact scanList_nodup h rest acc2 m hacc2 hs2

end

mutual

theorem scanItem_congr (h1 h2 : EntryMap) (n : FsNode) :
    (∀ f ∈ dFilesNode n, fsOut f h2 = fsOut f h1) →
    ∀ acc, load_desktop_entry_item h2 n acc = load_desktop_entry_item h1 n acc := by
  cases n with
  | dir r cs =>
    intro hf acc
    cases r with
    | false => simp [load_desktop_entry_item]
    | true =>
      have hrec : load_desktop_entry_dir h2 cs [] = load_desktop_entry_dir h1 cs [] :=
        scanList_congr h1 h2 cs (fun f hf2 => hf f hf2) []
      simp only [load_desktop_entry_item, hrec]
  | file g =>
    intro hf acc
    by_cases hext : g.ext = some "desktop"
    · have hg : fsOut g h2 = fsOut g h1 := hf g (by simp [dFilesNode, hext])
      cases hl1 : load_desktop_entry_file g h1 with
      | panic =>
        have hn2 : fsOut g h2 = none := by
          rw [hg, (fsOut_eq_none_iff g h1).mpr hl1]
        have hl2 : load_desktop_entry_file g h2 = .panic :=
          (fsOut_eq_none_iff g h2).mp hn2
        simp [load_desktop_entry_item, hext, hl1, hl2]
      | result e b =>
        have h2some : fsOut g h2 = some e := by
          rw [hg]
          simp [fsOut, hl1]
        obtain ⟨b2, hl2⟩ := (fsOut_eq_some_iff g h2 e).mp h2some
        cases e with
        | none => simp [load_desktop_entry_item, hext, hl1, hl2]
        | some e0 => simp [load_desktop_entry_item, hext, hl1, hl2]
    · simp [load_desktop_entry_item, hext]

theorem scanList_congr (h1 h2 : EntryMap) (ns : List FsNode) :
    (∀ f ∈ dFilesList ns, fsOut f h2 = fsOut f h1) →
    ∀ acc, load_desktop_entry_dir h2 ns acc = load_desktop_entry_dir h1 ns acc := by
  cases ns with
  | nil => intro _ acc; simp [load_desktop_entry_dir]
  | cons n rest =>
    intro hf acc
    have hitem : load_desktop_entry_item h2 n acc = load_desktop_entry_item h1 n acc :=
      scanItem_congr h1 h2 n
        (fun f hf2 => hf f (List.mem_append.mpr (Or.inl hf2))) acc
    have hrest : ∀ acc2, load_desktop_entry_dir h2 rest acc2 =
        load_desktop_entry_dir h1 rest acc2 :=
      scanList_congr h1 h2 rest
        (fun f hf2 => hf f (List.mem_append.mpr (Or.inr hf2)))
    cases hit : load_desktop_entry_item h1 n acc with
    | none => simp [load_desktop_entry_dir, hitem, hit]
    | some acc2 => simp [load_desktop_entry_dir, hitem, hit, hrest acc2]

end

mutual

theorem scanItem_lookup (h : EntryMap) (n : FsNode) :
    ∀ acc m q, emNodup acc → load_desktop_entry_item h n acc = some m →
      emGet m q = oor (prodLastNode h n q) (emGet acc q) := by
  cases n with
  | dir r cs =>
    intro acc m q hacc hs
    cases r with
    | false => simp [load_desktop_entry_item] at hs
    | true =>
      cases hsub : load_desktop_entry_dir h cs [] with
      | none => simp [load_desktop_entry_item, hsub] at hs
      | some sub =>
        simp only [load_desktop_entry_item, hsub] at hs
        obtain rfl : emExtend acc sub = m := by simpa using hs
        have hnil : emNodup ([] : EntryMap) := by simp [emNodup, emKeys]
        have hnsub : emNodup sub := scanList_nodup h cs [] sub hnil hsub
        rw [emGet_emExtend sub q acc hnsub,
          scanList_lookup h cs [] sub q hnil hsub,
          show (emGet [] q : Option Entry) = none from rfl, oor_none_right,
          show prodLastNode h (FsNode.dir true cs) q = prodLastList h cs q from rfl]
  | file g =>
    intro acc m q hacc hs
    by_cases hext : g.ext = some "desktop"
    · cases hl : load_desktop_entry_file g h with
      | panic => simp [load_desktop_entry_item, hext, hl] at hs
      | result e b =>
        cases e with
        | none =>
          simp only [load_desktop_entry_item, if_pos hext, hl] at hs
          obtain rfl : acc = m := by simpa using hs
          by_cases hpq : g.path = q
          · simp [prodLastNode, hext, hpq, hl, oor]
          · simp [prodLastNode, hext, hpq, oor]
        | some e0 =>
          simp only [load_desktop_entry_item, if_pos hext, hl] at hs
          obtain rfl : emInsert acc g.path e0 = m := by simpa using hs
          rw [emGet_emInsert]
          by_cases hpq : g.path = q
          · simp [prodLastNode, hext, hpq, hl, oor]
          · simp [prodLastNode, hext, hpq, oor]
    · simp only [load_desktop_entry_item, if_neg hext] at hs
      obtain rfl : acc = m := by simpa using hs
      simp [prodLastNode, hext, oor]

theorem scanList_lookup (h : EntryMap) (ns : List FsNode) :
    ∀ acc m q, emNodup acc → load_desktop_entry_dir h ns acc = some m →
      emGet m q = oor (prodLastList h ns q) (emGet acc q) := by
  cases ns with
  | nil =>
    intro acc m q hacc hs
    obtain rfl : acc = m := by simpa [load_desktop_entry_dir] using hs
    simp [prodLastList, oor]
  | cons n rest =>
    intro acc m q hacc hs
    cases hitem : load_desktop_entry_item h n acc with
    | none => simp [load_desktop_entry_dir, hitem] at hs
    | some acc2 =>
      have hs2 : load_desktop_entry_dir h rest acc2 = some m := by
        simpa only [load_desktop_entry_dir, hitem] using hs
      have hacc2 : emNodup acc2 := scanItem_nodup h n acc acc2 hacc hitem
      rw [scanList_lookup h rest acc2 m q hacc2 hs2,
        scanItem_lookup h n acc acc2 q hacc hitem,
        show prodLastList h (n :: rest) q =
          oor (prodLastList h rest q) (prodLastNode h n q) from rfl,
        oor_assoc]

end

mutual

theorem prodLastNode_none (h : EntryMap) (n : FsNode) :
    ∀ q, q ∉ (dFilesNode n).map DFile.path → prodLastNode h n q = none := by
  cases n with
  | dir r cs =>
    intro q hq
    exact prodLastList_none h cs q hq
  | file g =>
    intro q hq
    by_cases hext : g.ext = some "desktop"
    · have hne : ¬ g.path = q := by
        intro hcon
        exact hq (by simp [dFilesNode, hext, hcon])
      simp [prodLastNode, hne]
    · simp [prodLastNode, hext]

theorem prodLastList_none (h : EntryMap) (ns : List FsNode) :
    ∀ q, q ∉ (dFilesList ns).map DFile.path → prodLastList h ns q = none := by
  cases ns with
  | nil => intro q _; simp [prodLastList]
  | cons n rest =>
    intro q hq
    rw [show dFilesList (n :: rest) = dFilesNode n ++ dFilesList rest from rfl,
      List.map_append] at hq
    have hn : q ∉ (dFilesNode n).map DFile.path :=
      fun hc => hq (List.mem_append.mpr (Or.inl hc))
    have hr : q ∉ (dFilesList rest).map DFile.path :=
      fun hc => hq (List.mem_append.mpr (Or.inr hc))
    rw [show prodLastList h (n :: rest) q =
      oor (prodLastList h rest q) (prodLastNode h n q) from rfl,
      prodLastList_none h rest q hr, prodLastNode_none h n q hn]
    rfl

end

mutual

theorem prodLastNode_unique (h : EntryMap) (n : FsNode) :
    ∀ f, f ∈ dFilesNode n → ((dFilesNode n).map DFile.path).Nodup →
      prodLastNode h n f.path =
        (match load_desktop_entry_file f h with
         | .result (some e) _ => some e
         | _ => none) := by
  cases n with
  | dir r cs =>
    intro f hf hnd
    exact prodLastList_unique h cs f hf hnd
  | file g =>
    intro f hf hnd
    by_cases hext : g.ext = some "desktop"
    · have hfg : f = g := by simpa [dFilesNode, hext] using hf
      subst hfg
      simp [prodLastNode, hext]
    · simp [dFilesNode, hext] at hf

theorem prodLastList_unique (h : EntryMap) (ns : List FsNode) :
    ∀ f, f ∈ dFilesList ns → ((dFilesList ns).map DFile.path).Nodup →
      prodLastList h ns f.path =
        (match load_desktop_entry_file f h with
         | .result (some e) _ => some e
         | _ => none) := by
  cases ns with
  | nil => intro f hf _; simp [dFilesList] at hf
  | cons n rest =>
    intro f hf hnd
    rw [show dFilesList (n :: rest) = dFilesNode n ++ dFilesList rest from rfl,
      List.map_append, List.nodup_append] at hnd
    obtain ⟨hnd1, hnd2, hdisj⟩ := hnd
    rw [show prodLastList h (n :: rest) f.path =
      oor (prodLastList h rest f.path) (prodLastNode h n f.path) from rfl]
    rcases List.mem_append.mp
      (show f ∈ dFilesNode n ++ dFilesList rest from hf) with hf1 | hf1
    · have hnotr : f.path ∉ (dFilesList rest).map DFile.path := by
        intro hc
        exact hdisj (List.mem_map.mpr ⟨f, hf1, rfl⟩) hc
      rw [prodLastList_none h rest f.path hnotr]
      exact prodLastNode_unique h n f hf1 hnd1
    · have hnotn : f.path ∉ (dFilesNode n).map DFile.path := by
        intro hc
        exact hdisj hc (List.mem_map.mpr ⟨f, hf1, rfl⟩)
      rw [prodLastNode_none h n f.path hnotn, oor_none_right]
      exact prodLastList_unique h rest f hf1 hnd2

end

mutual

theorem scanItem_keys (h : EntryMap) (n : FsNode) :
    ∀ acc m q, load_desktop_entry_item h n acc = some m → q ∈ emKeys m →
      q ∈ (dFilesNode n).map DFile.path ∨ q ∈ emKeys acc := by
  cases n with
  | dir r cs =>
    intro acc m q hs hq
    cases r with
    | false => simp [load_desktop_entry_item] at hs
    | true =>
      cases hsub : load_desktop_entry_dir h cs [] with
      | none => simp [load_desktop_entry_item, hsub] at hs
      | some sub =>
        simp only [load_desktop_entry_item, hsub] at hs
        obtain rfl : emExtend acc sub = m := by simpa using hs
        rcases (mem_emKeys_emExtend sub q acc).mp hq with h1 | h1
        · exact Or.inr h1
        · rcases scanList_keys h cs [] sub q hsub h1 with h2 | h2
          · exact Or.inl h2
          · simp [emKeys] at h2
  | file g =>
    intro acc m q hs hq
    by_cases hext : g.ext = some "desktop"
    · cases hl : load_desktop_entry_file g h with
      | panic => simp [load_desktop_entry_item, hext, hl] at hs
      | result e b =>
        cases e with
        | none =>
          simp only [load_desktop_entry_item, if_pos hext, hl] at hs
          obtain rfl : acc = m := by simpa using hs
          exact Or.inr hq
        | some e0 =>
          simp only [load_desktop_entry_item, if_pos hext, hl] at hs
          obtain rfl : emInsert acc g.path e0 = m := by simpa using hs
          rcases (mem_emKeys_emInsert acc g.path q e0).mp hq with h1 | h1
          · exact Or.inr h1
          · exact Or.inl (by simp [dFilesNode, hext, h1])
    · simp only [load_desktop_entry_item, if_neg hext] at hs
      obtain rfl : acc = m := by simpa using hs
      exact Or.inr hq

theorem scanList_keys (h : EntryMap) (ns : List FsNode) :
    ∀ acc m q, load_desktop_entry_dir h ns acc = some m → q ∈ emKeys m →
      q ∈ (dFilesList ns).map DFile.path ∨ q ∈ emKeys acc := by
  cases ns with
  | nil =>
    intro acc m q hs hq
    obtain rfl : acc = m := by simpa [load_desktop_entry_dir] using hs
    exact Or.inr hq
  | cons n rest =>
    intro acc m q hs hq
    cases hitem : load_desktop_entry_item h n acc with
    | none => simp [load_desktop_entry_dir, hitem] at hs
    | some acc2 =>
      have hs2 : load_desktop_entry_dir h rest acc2 = some m := by
        simpa only [load_desktop_entry_dir, hitem] using hs
      have happ : dFilesList (n :: rest) = dFilesNode n ++ dFilesList rest := rfl
      rcases scanList_keys h rest acc2 m q hs2 hq with h1 | h1
      · exact Or.inl (by
          rw [happ, List.map_append]
          exact List.mem_append.mpr (Or.inr h1))
      · rcases scanItem_keys h n acc acc2 q hitem h1 with h2 | h2
        · exact Or.inl (by
            rw [happ, List.map_append]
            exact List.mem_append.mpr (Or.inl h2))
        · exact Or.inr h2

end

theorem mem_emKeys_iff (m : EntryMap) (q : String) :
    q ∈ emKeys m ↔ ∃ v, (q, v) ∈ m := by
  constructor
  · intro hq
    obtain ⟨⟨a, b⟩, hx, hfst⟩ := List.mem_map.mp hq
    simp only at hfst
    subst hfst
    exact ⟨b, hx⟩
  · rintro ⟨v, hv⟩
    exact List.mem_map.mpr ⟨(q, v), hv, rfl⟩

theorem load_bin_dir_cons (h : EntryMap) (it : BinItem) (rest : List BinItem)
    (acc : EntryMap) :
    load_bin_dir h (it :: rest) acc = load_bin_dir h rest
      (if it.isFile then emInsert acc it.path (load_bin_entry it h) else acc) := rfl

theorem load_bin_dir_mem (h : EntryMap) (items : List BinItem) :
    ∀ acc q v, (q, v) ∈ load_bin_dir h items acc →
      (q, v) ∈ acc ∨ ∃ it, it ∈ items ∧ it.isFile = true ∧ q = it.path ∧
        v = load_bin_entry it h := by
  induction items with
  | nil => intro acc q v hm; exact Or.inl hm
  | cons it rest ih =>
    intro acc q v hm
    rw [load_bin_dir_cons] at hm
    rcases ih _ q v hm with h1 | ⟨it2, h2, h3, h4, h5⟩
    · by_cases hf : it.isFile = true
      · rw [if_pos hf] at h1
        rcases mem_emInsert acc h1 with ⟨hq, hv⟩ | h6
        · exact Or.inr ⟨it, List.mem_cons_self it rest, hf, hq, hv⟩
        · exact Or.inl h6
      · rw [if_neg hf] at h1
        exact Or.inl h1
    · exact Or.inr ⟨it2, List.mem_cons_of_mem _ h2, h3, h4, h5⟩

theorem load_bin_dir_keys_mono (h : EntryMap) (items : List BinItem) :
    ∀ acc q, q ∈ emKeys acc → q ∈ emKeys (load_bin_dir h items acc) := by
  induction items with
  | nil => intro acc q hq; exact hq
  | cons it rest ih =>
    intro acc q hq
    rw [load_bin_dir_cons]
    apply ih
    by_cases hf : it.isFile = true
    · rw [if_pos hf]
      exact (mem_emKeys_emInsert acc it.path q _).mpr (Or.inl hq)
    · rw [if_neg hf]
      exact hq

theorem load_bin_dir_keys (h : EntryMap) (items : List BinItem) :
    ∀ acc it, it ∈ items → it.isFile = true →
      it.path ∈ emKeys (load_bin_dir h items acc) := by
  induction items with
  | nil => intro acc it h1 _; simp at h1
  | cons it2 rest ih =>
    intro acc it h1 h2
    rw [load_bin_dir_cons]
    rcases List.mem_cons.mp h1 with rfl | h3
    · apply load_bin_dir_keys_mono
      rw [if_pos h2]
      exact (mem_emKeys_emInsert acc it.path it.path _).mpr (Or.inr rfl)
    · exact ih _ it h3 h2

theorem load_bin_dir_nodup (h : EntryMap) (items : List BinItem) :
    ∀ acc, emNodup acc → emNodup (load_bin_dir h items acc) := by
  induction items with
  | nil => intro acc hacc; exact hacc
  | cons it rest ih =>
    intro acc hacc
    rw [load_bin_dir_cons]
    apply ih
    by_cases hf : it.isFile = true
    · rw [if_pos hf]
      exact emNodup_emInsert _ _ hacc
    · rw [if_neg hf]
      exact hacc

theorem load_bin_dir_congr (h1 h2 : EntryMap) (items : List BinItem) :
    (∀ it ∈ items, it.isFile = true →
      load_bin_entry it h2 = load_bin_entry it h1) →
    ∀ acc, load_bin_dir h2 items acc = load_bin_dir h1 items acc := by
  induction items with
  | nil => intro _ acc; rfl
  | cons it rest ih =>
    intro hs acc
    rw [load_bin_dir_cons, load_bin_dir_cons]
    have ih2 := ih (fun it2 h2m hf => hs it2 (List.mem_cons_of_mem _ h2m) hf)
    by_cases hf : it.isFile = true
    · rw [if_pos hf, if_pos hf, hs it (List.mem_cons_self it rest) hf]
      exact ih2 _
    · rw [if_neg hf, if_neg hf]
      exact ih2 _

theorem go_cons (h : EntryMap) (d : PathDir) (rest : List PathDir)
    (acc : EntryMap) (items : List BinItem) (hls : d.listing = some items) :
    load_bin_entries_go h (d :: rest) acc = load_bin_entries_go h rest
      (emExtend acc (sortByName (load_bin_dir h items []))) := by
  simp [load_bin_entries_go, hls]

theorem go_nodup (h : EntryMap) (dirs : List PathDir) :
    ∀ acc m, emNodup acc → load_bin_entries_go h dirs acc = some m →
      emNodup m := by
  induction dirs with
  | nil =>
    intro acc m hacc hs
    obtain rfl : acc = m := by simpa [load_bin_entries_go] using hs
    exact hacc
  | cons d rest ih =>
    intro acc m hacc hs
    cases hls : d.listing with
    | none => simp [load_bin_entries_go, hls] at hs
    | some items =>
      rw [go_cons h d rest acc items hls] at hs
      exact ih _ m (emNodup_emExtend _ acc hacc) hs

theorem go_mem (h : EntryMap) (dirs : List PathDir) :
    ∀ acc m q v, load_bin_entries_go h dirs acc = some m → (q, v) ∈ m →
      (q, v) ∈ acc ∨ ∃ d, d ∈ dirs ∧ ∃ items, d.listing = some items ∧
        ∃ it, it ∈ items ∧ it.isFile = true ∧ q = it.path ∧
          v = load_bin_entry it h := by
  induction dirs with
  | nil =>
    intro acc m q v hs hm
    obtain rfl : acc = m := by simpa [load_bin_entries_go] using hs
    exact Or.inl hm
  | cons d rest ih =>
    intro acc m q v hs hm
    cases hls : d.listing with
    | none => simp [load_bin_entries_go, hls] at hs
    | some items =>
      rw [go_cons h d rest acc items hls] at hs
      rcases ih _ m q v hs hm with h1 | ⟨d2, hd2, items2, hls2, hrest⟩
      · rcases mem_emExtend _ acc h1 with h2 | h2
        · exact Or.inl h2
        · have h3 : (q, v) ∈ load_bin_dir h items [] :=
            (sortByName_perm _).mem_iff.mp h2
          rcases load_bin_dir_mem h items [] q v h3 with h4 | ⟨it, h5, h6, h7, h8⟩
          · simp at h4
          · exact Or.inr ⟨d, List.mem_cons_self d rest, items, hls, it, h5, h6, h7, h8⟩
      · exact Or.inr ⟨d2, List.mem_cons_of_mem _ hd2, items2, hls2, hrest⟩

theorem go_keys_mono (h : EntryMap) (dirs : List PathDir) :
    ∀ acc m q, load_bin_entries_go h dirs acc = some m → q ∈ emKeys acc →
      q ∈ emKeys m := by
  induction dirs with
  | nil =>
    intro acc m q hs hq
    obtain rfl : acc = m := by simpa [load_bin_entries_go] using hs
    exact hq
  | cons d rest ih =>
    intro acc m q hs hq
    cases hls : d.listing with
    | none => simp [load_bin_entries_go, hls] at hs
    | some items =>
      rw [go_cons h d rest acc items hls] at hs
      exact ih _ m q hs ((mem_emKeys_emExtend _ q acc).mpr (Or.inl hq))

theorem go_keys_mem (h : EntryMap) (dirs : List PathDir) :
    ∀ acc m d items it, d ∈ dirs → d.listing = some items → it ∈ items →
      it.isFile = true → load_bin_entries_go h dirs acc = some m →
      it.path ∈ emKeys m := by
  induction dirs with
  | nil => intro acc m d items it h1 _ _ _ _; simp at h1
  | cons d2 rest ih =>
    intro acc m d items it h1 h2 h3 h4 hs
    rcases List.mem_cons.mp h1 with rfl | h5
    · rw [go_cons h d rest acc items h2] at hs
      apply go_keys_mono h rest _ m it.path hs
      apply (mem_emKeys_emExtend _ it.path acc).mpr
      right
      exact (((sortByName_perm (load_bin_dir h items [])).map Prod.fst).mem_iff).mpr
        (load_bin_dir_keys h items [] it h3 h4)
    · cases hls : d2.listing with
      | none => simp [load_bin_entries_go, hls] at hs
      | some items2 =>
        rw [go_cons h d2 rest acc items2 hls] at hs
        exact ih _ m d items it h5 h2 h3 h4 hs

theorem go_keys_sub (h : EntryMap) (dirs : List PathDir) :
    ∀ acc m q, load_bin_entries_go h dirs acc = some m → q ∈ emKeys m →
      q ∈ emKeys acc ∨ q ∈ binPathsDirs dirs := by
  induction dirs with
  | nil =>
    intro acc m q hs hq
    obtain rfl : acc = m := by simpa [load_bin_entries_go] using hs
    exact Or.inl hq
  | cons d rest ih =>
    intro acc m q hs hq
    cases hls : d.listing with
    | none => simp [load_bin_entries_go, hls] at hs
    | some items =>
      rw [go_cons h d rest acc items hls] at hs
      rcases ih _ m q hs hq with h1 | h1
      · rcases (mem_emKeys_emExtend _ q acc).mp h1 with h2 | h2
        · exact Or.inl h2
        · have h3 : q ∈ emKeys (load_bin_dir h items []) :=
            (((sortByName_perm _).map Prod.fst).mem_iff).mp h2
          obtain ⟨v, h4⟩ := (mem_emKeys_iff _ q).mp h3
          rcases load_bin_dir_mem h items [] q v h4 with h5 | ⟨it, h6, h7, h8, _⟩
          · simp at h5
          · right
            simp only [binPathsDirs, hls]
            apply List.mem_append.mpr
            left
            exact List.mem_map.mpr ⟨it, List.mem_filter.mpr ⟨h6, by simpa using h7⟩, h8.symm⟩
      · right
        simp only [binPathsDirs, hls]
        exact List.mem_append.mpr (Or.inr h1)

theorem go_congr (h1 h2 : EntryMap) (dirs : List PathDir) :
    (∀ d ∈ dirs, ∀ items, d.listing = some items →
      ∀ it ∈ items, it.isFile = true →
        load_bin_entry it h2 = load_bin_entry it h1) →
    ∀ acc, load_bin_entries_go h2 dirs acc = load_bin_entries_go h1 dirs acc := by
  induction dirs with
  | nil => intro _ acc; rfl
  | cons d rest ih =>
    intro hs acc
    cases hls : d.listing with
    | none => simp [load_bin_entries_go, hls]
    | some items =>
      have hdir : load_bin_dir h2 items [] = load_bin_dir h1 items [] :=
        load_bin_dir_congr h1 h2 items
          (fun it hm hf => hs d (List.mem_cons_self d rest) items hls it hm hf) []
      rw [go_cons h2 d rest acc items hls, go_cons h1 d rest acc items hls, hdir]
      exact ih (fun d2 hd2 => hs d2 (List.mem_cons_of_mem _ hd2)) _

/-- C4: running the full catalog build (load prior catalog, scan both
sources, merge, persist) a second time over an unchanged filesystem,
with the first run's persisted catalog as the new prior catalog,
returns exactly the same catalog — hence the same in-memory ordering
and, since the cache file is a deterministic serialization of the map,
byte-identical persisted contents.  The two side conditions state that
the model describes a real filesystem: distinct descriptor files have
distinct paths, and no descriptor file path doubles as a search-path
executable. -/
theorem load_entries_idempotent (roots : List FsNode) (bins : List PathDir)
    (h c : EntryMap)
    (hnd : (dPaths roots).Nodup)
    (hdisj : ∀ q ∈ dPaths roots, q ∉ binPaths bins)
    (h1 : load_entries roots bins h = some c) :
    load_entries roots bins c = some c := by
  unfold load_entries at h1
  cases hd : load_desktop_entries roots h with
  | none => simp [hd] at h1
  | some d =>
  rw [hd] at h1
  cases hb : load_bin_entries bins h with
  | none => simp [hb] at h1
  | some b =>
  rw [hb] at h1
  have hc : c = emExtend d b := by
    simpa [save_history] using h1.symm
  unfold load_desktop_entries at hd
  cases hscan : load_desktop_entry_dir h roots [] with
  | none => simp [hscan] at hd
  | some d0 =>
  rw [hscan] at hd
  have hdd : d = sortByName d0 := by simpa using hd.symm
  have hnil : emNodup ([] : EntryMap) := by simp [emNodup, emKeys]
  have hnd0 : emNodup d0 := scanList_nodup h roots [] d0 hnil hscan
  have hgo : load_bin_entries_go h (get_paths bins) [] = some b := hb
  have hndb : emNodup b := go_nodup h (get_paths bins) [] b hnil hgo
  have hgetc : ∀ q, emGet c q = oor (emGet b q) (emGet d q) := by
    intro q
    rw [hc]
    exact emGet_emExtend b q d hndb
  have hkeysb : ∀ q, q ∈ emKeys b → q ∈ binPaths bins := by
    intro q hq
    rcases go_keys_sub h (get_paths bins) [] b q hgo hq with h2 | h2
    · simp [emKeys] at h2
    · exact h2
  have hfile : ∀ f ∈ dFilesList roots, emGet c f.path =
      (match load_desktop_entry_file f h with
       | .result (some e) _ => some e
       | _ => none) := by
    intro f hf
    have hpf : f.path ∈ dPaths roots := List.mem_map.mpr ⟨f, hf, rfl⟩
    have hbnone : emGet b f.path = none :=
      (emGet_eq_none_iff b f.path).mpr
        (fun hcon => hdisj f.path hpf (hkeysb f.path hcon))
    rw [hgetc f.path, hbnone,
      show oor none (emGet d f.path) = emGet d f.path from rfl,
      hdd, emGet_sortByName d0 hnd0 f.path,
      scanList_lookup h roots [] d0 f.path hnil hscan,
      show (emGet [] f.path : Option Entry) = none from rfl, oor_none_right]
    exact prodLastList_unique h roots f hf hnd
  have hout : ∀ f ∈ dFilesList roots, fsOut f c = fsOut f h := by
    intro f hf
    have hnp : load_desktop_entry_file f h ≠ .panic :=
      scanList_no_panic h roots [] d0 hscan f hf
    cases hl : load_desktop_entry_file f h with
    | panic => exact absurd hl hnp
    | result e bfl =>
      cases e with
      | some e0 =>
        have hcpath : emGet c f.path = some e0 := by
          rw [hfile f hf, hl]
        have hmt : e0.mtime = some f.mtime := load_file_mtime f h e0 bfl hl
        have hl2 : load_desktop_entry_file f c = .result (some e0) false := by
          simp [load_desktop_entry_file, hcpath, hmt]
        simp [fsOut, hl, hl2]
      | none =>
        have hcpath : emGet c f.path = none := by
          rw [hfile f hf, hl]
        have hparse0 : parse_desktop_entry f 0 = .result none bfl := by
          unfold load_desktop_entry_file at hl
          cases hg : emGet h f.path with
          | none => simpa [hg] using hl
          | some e1 =>
            simp only [hg] at hl
            cases hm : e1.mtime with
            | none => simp only [hm] at hl; simp at hl
            | some m =>
              simp only [hm] at hl
              by_cases heq : m = f.mtime
              · rw [if_pos heq] at hl
                simp at hl
              · rw [if_neg heq] at hl
                exact parse_none_count f e1.count 0 bfl hl
        have hl2 : load_desktop_entry_file f c = .result none bfl := by
          simp [load_desktop_entry_file, hcpath, hparse0]
        simp [fsOut, hl, hl2]
  have hscan2 : load_desktop_entry_dir c roots [] = some d0 := by
    rw [scanList_congr h c roots hout []]
    exact hscan
  have hd2 : load_desktop_entries roots c = some d := by
    unfold load_desktop_entries
    rw [hscan2, hdd]
  have hcong : ∀ d2 ∈ get_paths bins, ∀ items, d2.listing = some items →
      ∀ it ∈ items, it.isFile = true →
        load_bin_entry it c = load_bin_entry it h := by
    intro d2 hd2' items hits it hit hf
    have hkey : it.path ∈ emKeys b :=
      go_keys_mem h (get_paths bins) [] b d2 items it hd2' hits hit hf hgo
    obtain ⟨v, hv⟩ := (mem_emKeys_iff b it.path).mp hkey
    have hgetb : emGet b it.path = some v := emGet_of_mem b hndb hv
    have hvcount : v.count = binCount h it.path := by
      rcases go_mem h (get_paths bins) [] b it.path v hgo hv with
        h2 | ⟨d3, _, items3, _, it3, _, _, hqp, hval⟩
      · simp at h2
      · rw [hval]
        simp only [load_bin_entry]
        rw [hqp]
    have hcount : binCount c it.path = binCount h it.path := by
      unfold binCount
      rw [hgetc it.path, hgetb,
        show oor (some v) (emGet d it.path) = some v from rfl]
      exact hvcount
    unfold load_bin_entry
    rw [hcount]
  have hbin2 : load_bin_entries bins c = some b := by
    rw [show load_bin_entries bins c =
      load_bin_entries_go c (get_paths bins) [] from rfl,
      go_congr h c (get_paths bins) hcong []]
    exact hgo
  rw [hc] at hd2 hbin2
  rw [hc]
  simp [load_entries, hd2, hbin2, save_history]

/-- Witness for C4: a one-descriptor, one-executable filesystem whose
catalog build is run twice; the second run reproduces the first run's
persisted catalog exactly. -/
theorem load_entries_idempotent_witness :
    (dPaths c4roots).Nodup ∧
    (∀ q ∈ dPaths c4roots, q ∉ binPaths c4bins) ∧
    load_entries c4roots c4bins [] = some c4cat ∧
    load_entries c4roots c4bins c4cat = some c4cat := by
  refine ⟨by decide, by decide, by decide, ?_⟩
  exact load_entries_idempotent c4roots c4bins [] c4cat (by decide) (by decide)
    (by decide)

end SkLauncher
